import Mathlib

/-!
Shallow embedding of the row storage engine of `src/src/buffer/out/Row.hpp`
(class `ROW`): the text `_data`, the column-width run-length map `_cwid`,
the column lookup `_indicesForCol`, and the public operations
`GlyphAt`, `WriteGlyphAtMeasured`, `DbcsAttrAt`, `DelimiterClassAt`,
`MeasureRight`.

Modelling conventions:
* UTF-16 code units are `Nat` (the engine is encoding-agnostic; only the
  first-code-unit comparison `<= 0x20` and set membership are used on them).
* `std::wstring` is `List Nat`; `wstring::replace(pos, len, s)` is
  take/drop splicing (which clamps exactly as the C++ does for
  `len > size - pos`; `pos > size`, which throws in C++, is unreachable
  for rows satisfying the row invariants).
* `til::small_rle<uint8_t, uint16_t, 3>` is a list of `(value, length)`
  runs.  Its implementation is not part of the sources under review (only
  `Row.hpp` uses it), so `replace` and `resize_trailing_extent` are
  modelled from the spec, section 4.5.
* The `gsl::narrow_cast` truncations to `uint8_t`/`uint16_t` are elided:
  all quantities are `Nat`.  (They only diverge for rows or glyphs longer
  than 65535 units, which none of the verified statements concern.)
* The damage-scan `while` loop of `WriteGlyphAtMeasured` has no a-priori
  termination argument, so it is modelled with fuel; `none` means the
  given fuel did not suffice (in particular it is `none` for every fuel
  exactly when the C++ loop does not terminate).
-/

namespace TerminalRow

/-- Result record of `ROW::_indicesForCol` (struct `ColumnLookupResult`). -/
structure ColumnLookupResult where
  dataOffset : Nat
  dataLength : Nat
  columnOffsetWithinGlyph : Nat
  numberOfColumns : Nat
  deriving Repr, DecidableEq

/-- Total number of columns covered by a run list: sum of `value * length`. -/
def runsCols : List (Nat × Nat) → Nat
  | [] => 0
  | (v, l) :: rest => v * l + runsCols rest

/-- Total number of code units covered by a run list: sum of `length`.
This is `til::small_rle::size()`. -/
def runsLen : List (Nat × Nat) → Nat
  | [] => 0
  | (_, l) :: rest => l + runsLen rest

/-- The loop body of `ROW::_indicesForCol`, recursing over the run list with
the accumulators `currentCol` (`cc`) and `currentWchar` (`cw`); `ds` is
`_data.size()`.  Mirrors Row.hpp lines 93-155: the hit condition is
`currentCol + value*length > col`; on a hit, the data offset advances by
`colsLeft / value`, the length is 1 extended by the following run's length
when that run exists with value 0 and the hit consumed the run's last glyph
(`colsLeft + value >= value*length`); out of runs, the tail
`(currentWchar, ds - currentWchar, 0, 0)` is returned.  (The C++ guard
`it != cend()` inside the hit branch is vacuously true there.) -/
def indicesForColAux (ds col : Nat) : List (Nat × Nat) → Nat → Nat → ColumnLookupResult
  | [], _, cw => ⟨cw, ds - cw, 0, 0⟩
  | (v, l) :: rest, cc, cw =>
    if col < cc + v * l then
      let colsLeft := col - cc
      let lenInWchars :=
        if v * l ≤ colsLeft + v then
          match rest with
          | (v2, l2) :: _ => if v2 = 0 then 1 + l2 else 1
          | [] => 1
      else 1
      ⟨cw + colsLeft / v, lenInWchars, colsLeft % v, v⟩
    else
      indicesForColAux ds col rest (cc + v * l) (cw + l)

/-- State of one `ROW` as far as the verified operations observe it:
`_data`, `_cwid`, the watermark `_maxc` and `_rowWidth`. -/
structure ROW where
  data : List Nat
  cwid : List (Nat × Nat)
  maxc : Nat
  rowWidth : Nat
  deriving Repr, DecidableEq

/-- `ROW::_indicesForCol(col)`. -/
def ROW.indicesForCol (row : ROW) (col : Nat) : ColumnLookupResult :=
  indicesForColAux row.data.length col row.cwid 0 0

/-- Expansion of a run list to one value per code unit. -/
def decodeRuns : List (Nat × Nat) → List Nat
  | [] => []
  | (v, l) :: rest => List.replicate l v ++ decodeRuns rest

/-- Canonical run-length encoding of a flat value list (no empty runs, no
adjacent equal-valued runs). -/
def encodeRuns : List Nat → List (Nat × Nat)
  | [] => []
  | x :: xs =>
    match encodeRuns xs with
    | [] => [(x, 1)]
    | (v, l) :: rest => if v = x then (x, l + 1) :: rest else (x, 1) :: (v, l) :: rest

/-- Modelled from the spec: `til::small_rle::replace(cuBegin, cuEnd, newRuns)`
(the run-length map implementation is not among the sources; spec section 4.5:
"substitute the code-unit range with the concatenation of `newRuns`, merging
with neighbors on both sides if values match (canonical form)"). -/
def rleReplace (rs : List (Nat × Nat)) (cuBegin cuEnd : Nat) (newRuns : List (Nat × Nat)) :
    List (Nat × Nat) :=
  let flat := decodeRuns rs
  encodeRuns (flat.take cuBegin ++ decodeRuns newRuns ++ flat.drop cuEnd)

/-- `til::small_rle::size()`: total covered length. -/
def rleSize (rs : List (Nat × Nat)) : Nat := runsLen rs

/-- Modelled from the spec: `til::small_rle::resize_trailing_extent(newTotal)`
(spec section 4.5: "extend or truncate the last run so the total length equals
`newTotalLength`; when extending, the value of the last run is reused"). -/
def rleResizeTrailingExtent (rs : List (Nat × Nat)) (newTotal : Nat) : List (Nat × Nat) :=
  let flat := decodeRuns rs
  if newTotal ≤ flat.length then encodeRuns (flat.take newTotal)
  else encodeRuns (flat ++ List.replicate (newTotal - flat.length) (flat.getLastD 1))

/-- `std::wstring::replace(b, len, repl)` on a list. -/
def listReplace (xs : List Nat) (b len : Nat) (repl : List Nat) : List Nat :=
  xs.take b ++ repl ++ xs.drop (b + len)

/-- `UNICODE_SPACE`. -/
def UNICODE_SPACE : Nat := 32

/-- The damage-scan `while` loop of `ROW::WriteGlyphAtMeasured`
(Row.hpp lines 184-192), with fuel: while `maxD < target` (where the target
is `col + ncols`), look up `maxD`, add the hit's `dataLength` to `len` and
advance `maxD` by the hit's `numberOfColumns`.  Returns `none` when fuel
runs out before the guard fails. -/
def damageScan (runs : List (Nat × Nat)) (ds target : Nat) : Nat → Nat → Nat → Option (Nat × Nat)
  | 0, len, maxD => if target ≤ maxD then some (len, maxD) else none
  | fuel + 1, len, maxD =>
    if maxD < target then
      let r := indicesForColAux ds maxD runs 0 0
      damageScan runs ds target fuel (len + r.dataLength) (maxD + r.numberOfColumns)
    else
      some (len, maxD)

/-- The lookup-then-scan prelude of `WriteGlyphAtMeasured`: the initial
lookup of `col` gives `(begin, len, off, cols)`; `minDamageColumn = col - off`,
the scan starts at `maxDamageColumnExclusive = minDamageColumn + cols` with
accumulated length `len`, and runs until it reaches `col + ncols`. -/
def writeScan (fuel : Nat) (row : ROW) (col ncols : Nat) : Option (Nat × Nat) :=
  let l := row.indicesForCol col
  damageScan row.cwid row.data.length (col + ncols) fuel l.dataLength
    (col - l.columnOffsetWithinGlyph + l.numberOfColumns)

/-- `ROW::WriteGlyphAtMeasured(col, ncols, glyph)` (Row.hpp lines 164-254).
After the damage scan, the exact-overwrite branch
(`minDamageColumn == col && maxDamageColumnExclusive == col + ncols`)
splices `glyph` into the data and `[(ncols,1), (0, g-1)]` (trailer run
omitted when `g == 1`) into `_cwid`; otherwise left/right padding spaces
are added and the runs `[(1,leftPad)?, (ncols,1), (0,g-1)?, (1,rightPad)?]`
are used.  A trailing-extent resize repairs any size mismatch, the
watermark takes `max`, and `(begin + g, col + ncols)` is returned. -/
def writeGlyphAtMeasured (fuel : Nat) (row : ROW) (col ncols : Nat) (glyph : List Nat) :
    Option (ROW × Nat × Nat) :=
  let l := row.indicesForCol col
  let bg := l.dataOffset
  let minDamageColumn := col - l.columnOffsetWithinGlyph
  match writeScan fuel row col ncols with
  | none => none
  | some (len, maxDamageColumnExclusive) =>
    let leftPad := col - minDamageColumn
    let rightPad := maxDamageColumnExclusive - (col + ncols)
    let newData :=
      if minDamageColumn = col ∧ maxDamageColumnExclusive = col + ncols then
        listReplace row.data bg len glyph
      else
        listReplace row.data bg len
          (List.replicate leftPad UNICODE_SPACE ++ glyph ++
            List.replicate rightPad UNICODE_SPACE)
    let newCwid :=
      if minDamageColumn = col ∧ maxDamageColumnExclusive = col + ncols then
        rleReplace row.cwid bg (bg + len)
          (if glyph.length = 1 then [(ncols, 1)] else [(ncols, 1), (0, glyph.length - 1)])
      else
        rleReplace row.cwid bg (bg + len)
          ((if leftPad ≠ 0 then [((1 : Nat), leftPad)] else []) ++ [(ncols, 1)] ++
            (if 1 < glyph.length then [((0 : Nat), glyph.length - 1)] else []) ++
            (if rightPad ≠ 0 then [((1 : Nat), rightPad)] else []))
    let newCwid2 :=
      if rleSize newCwid ≠ newData.length then rleResizeTrailingExtent newCwid newData.length
      else newCwid
    some ({ data := newData, cwid := newCwid2,
            maxc := max row.maxc maxDamageColumnExclusive, rowWidth := row.rowWidth },
          (bg + glyph.length, col + ncols))

/-- `ROW::GlyphAt(col)`: the code-unit view `(dataOffset, dataLength)`
materialized as the corresponding sublist of `_data`. -/
def glyphAt (row : ROW) (col : Nat) : List Nat :=
  let l := row.indicesForCol col
  (row.data.drop l.dataOffset).take l.dataLength

/-- `DbcsAttribute::Attribute`. -/
inductive DbcsAttribute where
  | Single
  | Leading
  | Trailing
  deriving Repr, DecidableEq

/-- `ROW::DbcsAttrAt(col)` (Row.hpp lines 256-272). -/
def dbcsAttrAt (row : ROW) (col : Nat) : DbcsAttribute :=
  let l := row.indicesForCol col
  if l.numberOfColumns = 1 then DbcsAttribute.Single
  else if 1 ≤ l.columnOffsetWithinGlyph then DbcsAttribute.Trailing
  else if l.columnOffsetWithinGlyph = 0 then DbcsAttribute.Leading
  else DbcsAttribute.Single

/-- `DelimiterClass`. -/
inductive DelimiterClass where
  | ControlChar
  | DelimiterChar
  | RegularChar
  deriving Repr, DecidableEq

/-- `ROW::DelimiterClassAt(column, wordDelimiters)` (Row.hpp lines 282-299):
`none` models the `THROW_HR_IF(E_INVALIDARG, column >= _rowWidth)` failure;
otherwise the first code unit of the glyph at the column is classified.
(The C++ dereferences `GlyphAt(column).begin()` unchecked; `headD 0` stands
for that read and is only reachable on rows violating the row invariants.) -/
def delimiterClassAt (row : ROW) (col : Nat) (wordDelimiters : List Nat) :
    Option DelimiterClass :=
  if row.rowWidth ≤ col then none
  else
    let g := (glyphAt row col).headD 0
    if g ≤ UNICODE_SPACE then some DelimiterClass.ControlChar
    else if g ∈ wordDelimiters then some DelimiterClass.DelimiterChar
    else some DelimiterClass.RegularChar

/-- `ROW::MeasureRight()`: the watermark `_maxc`. -/
def measureRight (row : ROW) : Nat := row.maxc

/-- Sample row: a 2-column glyph (U+6F22) at columns 0-1, then `x` (120) at
column 2. -/
def rowWideLead : ROW := ⟨[28450, 120], [(2, 1), (1, 1)], 0, 3⟩

/-- Sample row: the single 1-column code unit `x` (120). -/
def rowSingle : ROW := ⟨[120], [(1, 1)], 0, 1⟩

/-- Sample row: two 1-column code units `a b`. -/
def rowAscii2 : ROW := ⟨[97, 98], [(1, 2)], 0, 2⟩

/-- Sample row: `x` (120) at column 0, then a 2-column glyph at columns 1-2. -/
def rowNarrowWide : ROW := ⟨[120, 28450], [(1, 1), (2, 1)], 0, 5⟩

/-! ### Helper lemmas about the column lookup -/

/-- Runs whose columns lie entirely at or before `col` are skipped by the
lookup loop: the accumulators absorb their column and code-unit totals. -/
theorem indicesForColAux_append (ds col : Nat) (pre rs : List (Nat × Nat)) :
    ∀ cc cw, cc + runsCols pre ≤ col →
      indicesForColAux ds col (pre ++ rs) cc cw =
        indicesForColAux ds col rs (cc + runsCols pre) (cw + runsLen pre) := by
  induction pre with
  | nil => intro cc cw _; simp [runsCols, runsLen]
  | cons p pre ih =>
    intro cc cw h
    obtain ⟨v, l⟩ := p
    have hskip : ¬ col < cc + v * l := by
      simp only [runsCols] at h
      omega
    simp only [List.cons_append, indicesForColAux, if_neg hskip]
    rw [List.append_eq, ih (cc + v * l) (cw + l) (by simp only [runsCols] at h ⊢; omega)]
    simp only [runsCols, runsLen]
    congr 1 <;> omega

/-- A column at or beyond the total column extent of the runs falls off the
end of the loop: the lookup returns the out-of-bounds tail record. -/
theorem indicesForColAux_oob (ds col : Nat) (rs : List (Nat × Nat)) :
    ∀ cc cw, cc + runsCols rs ≤ col →
      indicesForColAux ds col rs cc cw =
        ⟨cw + runsLen rs, ds - (cw + runsLen rs), 0, 0⟩ := by
  intro cc cw h
  have := indicesForColAux_append ds col rs [] cc cw h
  rw [List.append_nil] at this
  rw [this]
  simp [indicesForColAux]

/-- Decoding inverts canonical encoding. -/
theorem decode_encodeRuns (xs : List Nat) : decodeRuns (encodeRuns xs) = xs := by
  induction xs with
  | nil => rfl
  | cons x xs ih =>
    simp only [encodeRuns]
    cases h : encodeRuns xs with
    | nil =>
      have : xs = [] := by rw [← ih, h]; rfl
      simp [decodeRuns, this]
    | cons p ps =>
      obtain ⟨v, l⟩ := p
      by_cases hv : v = x
      · subst hv
        simp only [if_pos rfl]
        rw [← ih, h]
        simp [decodeRuns, List.replicate_succ]
      · simp only [if_neg hv]
        rw [← ih, h]
        simp [decodeRuns]

/-- The flat expansion of a run list has `runsLen` elements. -/
theorem length_decodeRuns (rs : List (Nat × Nat)) : (decodeRuns rs).length = runsLen rs := by
  induction rs with
  | nil => rfl
  | cons p rest ih =>
    obtain ⟨v, l⟩ := p
    simp [decodeRuns, runsLen, ih]

/-- `rleSize` after encoding a flat list is that list's length. -/
theorem rleSize_encodeRuns (xs : List Nat) : rleSize (encodeRuns xs) = xs.length := by
  rw [rleSize, ← length_decodeRuns, decode_encodeRuns]

/-- Shifting the looked-up column by `j` within one glyph: when the lookup of
`col` lands on the leading column of its glyph (offset 0, glyph width above
`j`), the lookup of `col + j` hits the same run, yields the same data offset
and data length, the same width, and offset `j` within the glyph. -/
theorem indicesForColAux_shift (ds : Nat) (rs : List (Nat × Nat)) :
    ∀ col j cc cw,
      j < (indicesForColAux ds col rs cc cw).numberOfColumns →
      (indicesForColAux ds col rs cc cw).columnOffsetWithinGlyph = 0 →
      cc ≤ col →
      indicesForColAux ds (col + j) rs cc cw =
        { indicesForColAux ds col rs cc cw with columnOffsetWithinGlyph := j } := by
  induction rs with
  | nil =>
    intro col j cc cw hj _ _
    simp [indicesForColAux] at hj
  | cons p rest ih =>
    intro col j cc cw hj hoff hcc
    obtain ⟨v, l⟩ := p
    by_cases hhit : col < cc + v * l
    · simp only [indicesForColAux, if_pos hhit] at hj hoff
      have hv : 0 < v := Nat.lt_of_le_of_lt (Nat.zero_le j) hj
      obtain ⟨m, hm⟩ : ∃ m, col - cc = v * m := Nat.dvd_of_mod_eq_zero hoff
      have hml : m < l := by
        refine Nat.lt_of_mul_lt_mul_left (a := v) ?_
        omega
      have hub : v * m + v ≤ v * l := by
        have h1 : v * (m + 1) ≤ v * l := Nat.mul_le_mul_left v hml
        have h2 : v * (m + 1) = v * m + v := by ring
        omega
      have hhitj : col + j < cc + v * l := by omega
      have hmj : col + j - cc = v * m + j := by omega
      simp only [indicesForColAux, if_pos hhit, if_pos hhitj]
      have hdiv : (col + j - cc) / v = (col - cc) / v := by
        rw [hmj, hm, Nat.mul_add_div hv, Nat.mul_div_cancel_left m hv, Nat.div_eq_of_lt hj,
          Nat.add_zero]
      have hmod : (col + j - cc) % v = j := by
        rw [hmj, Nat.mul_add_mod, Nat.mod_eq_of_lt hj]
      have hcond : (v * l ≤ (col + j - cc) + v) = (v * l ≤ (col - cc) + v) := by
        apply propext
        constructor
        · intro hle
          by_cases hl1 : l ≤ m + 1
          · have h1 : v * l ≤ v * (m + 1) := Nat.mul_le_mul_left v hl1
            have h2 : v * (m + 1) = v * m + v := by ring
            omega
          · have h1 : v * (m + 2) ≤ v * l := Nat.mul_le_mul_left v (by omega)
            have h2 : v * (m + 2) = v * m + v + v := by ring
            omega
        · intro hle
          omega
      rw [ColumnLookupResult.mk.injEq]
      refine ⟨by rw [hdiv], ?_, hmod, rfl⟩
      simp only [hcond]
    · have hhitj : ¬ col + j < cc + v * l := by omega
      simp only [indicesForColAux, if_neg hhit] at hj hoff
      simp only [indicesForColAux, if_neg hhit, if_neg hhitj]
      exact ih col j (cc + v * l) (cw + l) hj hoff (by omega)

/-- The trailing-extent resize makes the total size the requested one. -/
theorem rleSize_rleResizeTrailingExtent (rs : List (Nat × Nat)) (n : Nat) :
    rleSize (rleResizeTrailingExtent rs n) = n := by
  rw [rleResizeTrailingExtent]
  by_cases h : n ≤ (decodeRuns rs).length
  · simp only [if_pos h, rleSize_encodeRuns, List.length_take]
    omega
  · simp only [if_neg h, rleSize_encodeRuns, List.length_append, List.length_replicate]
    omega

/-- The final size-mismatch fixup of `WriteGlyphAtMeasured` always leaves the
run map with exactly the requested total size. -/
theorem rleSize_fixup (X : List (Nat × Nat)) (n : Nat) :
    rleSize (if rleSize X ≠ n then rleResizeTrailingExtent X n else X) = n := by
  by_cases h : rleSize X ≠ n
  · rw [if_pos h]; exact rleSize_rleResizeTrailingExtent X n
  · rw [if_neg h]; exact of_not_not h

/-- Reading back a block that a splice placed at its own start position:
when the replacement string begins with `repl`, the `repl.length` code units
from offset `b` of the spliced result are `repl`. -/
theorem take_drop_listReplace (xs repl rest : List Nat) (b len : Nat)
    (hb : b ≤ xs.length) :
    ((listReplace xs b len (repl ++ rest)).drop b).take repl.length = repl := by
  unfold listReplace
  rw [List.append_assoc, List.drop_left' (by rw [List.length_take]; omega),
    List.append_assoc, List.take_left' rfl]

/-! ### Claim theorems -/

/-- C10: for every column that lies beyond the last run of `cwid` (no run
contains it), `DbcsAttrAt(col)` returns `Leading`, not `Single`: the
out-of-bounds lookup yields `numberOfColumns = 0` and
`columnOffsetWithinGlyph = 0`, which fails the width-1 test and the
offset-at-least-1 test and falls into the offset-0 branch. -/
theorem C10_oob_dbcs_leading (row : ROW) (col : Nat)
    (h : runsCols row.cwid ≤ col) :
    dbcsAttrAt row col = DbcsAttribute.Leading := by
  unfold dbcsAttrAt ROW.indicesForCol
  rw [indicesForColAux_oob row.data.length col row.cwid 0 0 (by omega)]
  rfl

/-- Witness for C10: column 5 of a row whose `cwid` covers one column. -/
theorem C10_oob_dbcs_leading_witness :
    runsCols rowSingle.cwid ≤ 5 ∧ dbcsAttrAt rowSingle 5 = DbcsAttribute.Leading :=
  ⟨by decide, C10_oob_dbcs_leading rowSingle 5 (by decide)⟩

/-- C6: for every glyph of width `w ≥ 2` whose leading column is `k` (lookup
offset 0 and width `w` at `k`), `GlyphAt(k + j)` returns the same view (same
data offset and same length) for every `0 ≤ j < w`. -/
theorem C6_wide_glyph_same_view (row : ROW) (k w j : Nat) (_hw : 2 ≤ w) (hj : j < w)
    (hoff : (row.indicesForCol k).columnOffsetWithinGlyph = 0)
    (hcols : (row.indicesForCol k).numberOfColumns = w) :
    (row.indicesForCol (k + j)).dataOffset = (row.indicesForCol k).dataOffset ∧
    (row.indicesForCol (k + j)).dataLength = (row.indicesForCol k).dataLength ∧
    glyphAt row (k + j) = glyphAt row k := by
  have h1 : j < (row.indicesForCol k).numberOfColumns := by rw [hcols]; exact hj
  have hshift : row.indicesForCol (k + j) =
      { row.indicesForCol k with columnOffsetWithinGlyph := j } :=
    indicesForColAux_shift row.data.length row.cwid k j 0 0 h1 hoff (Nat.zero_le k)
  refine ⟨by rw [hshift], by rw [hshift], ?_⟩
  unfold glyphAt
  rw [hshift]

/-- Witness for C6: the wide glyph at columns 0-1 of `rowWideLead` reads the
same from column 1 as from column 0. -/
theorem C6_wide_glyph_same_view_witness :
    (rowWideLead.indicesForCol 0).columnOffsetWithinGlyph = 0 ∧
    (rowWideLead.indicesForCol 0).numberOfColumns = 2 ∧
    glyphAt rowWideLead (0 + 1) = glyphAt rowWideLead 0 :=
  ⟨by decide, by decide,
    (C6_wide_glyph_same_view rowWideLead 0 2 1 (by decide) (by decide)
      (by decide) (by decide)).2.2⟩

/-- C3: for an in-bounds column (hitting the run `(v, l)` after the runs
`pre`), the lookup extends the returned code-unit length by the length of
the run following the hit run if and only if the column falls on the last
glyph of its run (`colsLeft + v ≥ v·l`) and that following run exists with
value 0; otherwise the length is 1. -/
theorem C3_lookup_trailer_extension (ds col v l : Nat) (pre rest : List (Nat × Nat))
    (h1 : runsCols pre ≤ col) (h2 : col < runsCols pre + v * l) :
    (indicesForColAux ds col (pre ++ (v, l) :: rest) 0 0).dataLength =
      match rest with
      | (v2, l2) :: _ => if v2 = 0 ∧ v * l ≤ (col - runsCols pre) + v then 1 + l2 else 1
      | [] => 1 := by
  rw [indicesForColAux_append ds col pre ((v, l) :: rest) 0 0 (by omega)]
  simp only [indicesForColAux, Nat.zero_add]
  rw [if_pos (by omega)]
  cases rest with
  | nil => by_cases hc : v * l ≤ col - runsCols pre + v <;> simp [hc]
  | cons q qs =>
    obtain ⟨v2, l2⟩ := q
    by_cases hc : v * l ≤ col - runsCols pre + v
    · by_cases hz : v2 = 0 <;> simp [hc, hz]
    · simp [hc]

/-- Witness for C3: column 4 hits the last glyph of the run `(2, 2)` and the
following run `(0, 1)` extends the length to 2. -/
theorem C3_lookup_trailer_extension_witness :
    runsCols [((1 : Nat), (2 : Nat))] ≤ 4 ∧
    4 < runsCols [((1 : Nat), (2 : Nat))] + 2 * 2 ∧
    (indicesForColAux 6 4 ([((1 : Nat), (2 : Nat))] ++ (2, 2) :: [(0, 1), (1, 1)]) 0 0).dataLength
      = 2 := by
  refine ⟨by decide, by decide, ?_⟩
  have h := C3_lookup_trailer_extension 6 4 2 2 [(1, 2)] [(0, 1), (1, 1)] (by decide) (by decide)
  simpa using h

/-- C7: `DelimiterClassAt(col, delimiterSet)` fails (with `InvalidArgument`)
if and only if `col ≥ width`; for `col < width` it classifies the first code
unit of the glyph at `col`: at most U+0020 gives `ControlChar`, else
membership in the delimiter set gives `DelimiterChar`, else `RegularChar`.
(The operation is a `const` read: in this embedding it returns only the
classification, so the row is unchanged by construction.) -/
theorem C7_delimiter_class (row : ROW) (col : Nat) (delims : List Nat) (c : Nat)
    (rest : List Nat) (hg : glyphAt row col = c :: rest) :
    (delimiterClassAt row col delims = none ↔ row.rowWidth ≤ col) ∧
    (col < row.rowWidth →
      delimiterClassAt row col delims =
        some (if c ≤ 32 then DelimiterClass.ControlChar
              else if c ∈ delims then DelimiterClass.DelimiterChar
              else DelimiterClass.RegularChar)) := by
  unfold delimiterClassAt UNICODE_SPACE
  rw [hg]
  by_cases hwidth : row.rowWidth ≤ col
  · rw [if_pos hwidth]
    exact ⟨⟨fun _ => hwidth, fun _ => rfl⟩, fun hlt => absurd hwidth (by omega)⟩
  · rw [if_neg hwidth]
    constructor
    · simp only [List.headD_cons]
      constructor
      · intro hnone
        exfalso
        by_cases h32 : c ≤ 32
        · rw [if_pos h32] at hnone; exact Option.noConfusion hnone
        · rw [if_neg h32] at hnone
          by_cases hmem : c ∈ delims
          · rw [if_pos hmem] at hnone; exact Option.noConfusion hnone
          · rw [if_neg hmem] at hnone; exact Option.noConfusion hnone
      · intro hge; exact absurd hge hwidth
    · intro _
      simp only [List.headD_cons]
      by_cases h32 : c ≤ 32
      · rw [if_pos h32, if_pos h32]
      · rw [if_neg h32, if_neg h32]
        by_cases hmem : c ∈ delims
        · rw [if_pos hmem, if_pos hmem]
        · rw [if_neg hmem, if_neg hmem]

/-- Witness for C7: column 0 of `rowSingle` holds `x` (120), above U+0020 and
not in the delimiter set `{,}`, hence `RegularChar`; the call does not fail. -/
theorem C7_delimiter_class_witness :
    glyphAt rowSingle 0 = [120] ∧
    delimiterClassAt rowSingle 0 [44] = some DelimiterClass.RegularChar := by
  refine ⟨by decide, ?_⟩
  have h := (C7_delimiter_class rowSingle 0 [44] 120 [] (by decide)).2 (by decide)
  rw [h]
  decide

/-- C5: the claim states the damage-scan loop of `WriteGlyphAtMeasured`
always terminates, including when `col + ncols` exceeds the materialized
columns.  The code contradicts this: on `rowSingle` (one materialized
column), the call with `col = 0`, `ncols = 2` makes the scan look up column
1, which is out of bounds and returns `coveredCols = 0`, so
`maxDamageColExcl` stays at 1 < 2 forever.  In the fuel model, no amount of
fuel produces a result. -/
theorem C5_scan_never_terminates :
    ∀ fuel : Nat, writeGlyphAtMeasured fuel rowSingle 0 2 [121] = none := by
  have key : ∀ fuel len, damageScan [((1 : Nat), (1 : Nat))] 1 2 fuel len 1 = none := by
    intro fuel
    induction fuel with
    | zero => intro len; simp [damageScan]
    | succ n ih =>
      intro len
      have hl : indicesForColAux 1 1 [((1 : Nat), (1 : Nat))] 0 0 = ⟨1, 0, 0, 0⟩ := by decide
      simp only [damageScan, if_pos (by omega : (1 : Nat) < 2), hl]
      exact ih len
  intro fuel
  have hscan : writeScan fuel rowSingle 0 2 = none := by
    unfold writeScan
    have hl : rowSingle.indicesForCol 0 = ⟨0, 1, 0, 1⟩ := by decide
    rw [hl]
    exact key fuel 1
  unfold writeGlyphAtMeasured
  rw [hscan]

/-- C4: after every terminating `WriteGlyphAtMeasured` call, `MeasureRight()`
equals the maximum of its previous value and `maxDamageColExcl` (the right
edge of the damage-repair region, the second component the damage scan
settles on); consequently `MeasureRight` is monotonically non-decreasing
across such calls. -/
theorem C4_watermark (fuel col ncols len maxD : Nat) (row row' : ROW)
    (glyph : List Nat) (ret : Nat × Nat)
    (hs : writeScan fuel row col ncols = some (len, maxD))
    (hw : writeGlyphAtMeasured fuel row col ncols glyph = some (row', ret)) :
    measureRight row' = max (measureRight row) maxD ∧
      measureRight row ≤ measureRight row' := by
  unfold writeGlyphAtMeasured at hw
  rw [hs] at hw
  simp only [Option.some.injEq, Prod.mk.injEq] at hw
  obtain ⟨h1, -⟩ := hw
  have hmax : row'.maxc = max row.maxc maxD := by rw [← h1]
  unfold measureRight
  rw [hmax]
  exact ⟨rfl, Nat.le_max_left _ _⟩

/-- Witness for C4: a 2-column write at column 0 of `rowNarrowWide` right-
damages the wide glyph at columns 1-2, so the watermark becomes 3, strictly
beyond `col + ncols = 2`. -/
theorem C4_watermark_witness :
    writeScan 5 rowNarrowWide 0 2 = some (2, 3) ∧
    (measureRight ⟨[121, 32], [(2, 1), (1, 1)], 3, 5⟩ =
        max (measureRight rowNarrowWide) 3 ∧
      measureRight rowNarrowWide ≤ measureRight ⟨[121, 32], [(2, 1), (1, 1)], 3, 5⟩) :=
  ⟨by decide,
    C4_watermark 5 0 2 2 3 rowNarrowWide ⟨[121, 32], [(2, 1), (1, 1)], 3, 5⟩ [121] (1, 2)
      (by decide) (by decide)⟩

/-- C9: after every terminating `WriteGlyphAtMeasured` call on a row where
`len(cwid) == len(data)` held before, `len(cwid) == len(data)` holds again:
the two range replacements move both lengths together and the final
trailing-extent resize repairs any residual mismatch before returning. -/
theorem C9_alignment (fuel col ncols : Nat) (row row' : ROW) (glyph : List Nat)
    (ret : Nat × Nat) (_hpre : rleSize row.cwid = row.data.length)
    (hw : writeGlyphAtMeasured fuel row col ncols glyph = some (row', ret)) :
    rleSize row'.cwid = row'.data.length := by
  unfold writeGlyphAtMeasured at hw
  cases hs : writeScan fuel row col ncols with
  | none => rw [hs] at hw; simp at hw
  | some p =>
    obtain ⟨len, maxD⟩ := p
    rw [hs] at hw
    simp only [Option.some.injEq, Prod.mk.injEq] at hw
    obtain ⟨h1, -⟩ := hw
    rw [← h1]
    exact rleSize_fixup _ _

/-- Witness for C9: an aligned 1-code-unit row stays aligned after writing a
2-code-unit glyph over its only column. -/
theorem C9_alignment_witness :
    rleSize rowSingle.cwid = rowSingle.data.length ∧
    rleSize [((1 : Nat), (1 : Nat)), (0, 1)] = [98, 99].length :=
  ⟨by decide,
    C9_alignment 5 0 1 rowSingle ⟨[98, 99], [(1, 1), (0, 1)], 1, 1⟩ [98, 99] (2, 1)
      (by decide) (by decide)⟩

/-- C8 counterexample: the claim says every call with `ncols = 0` is rejected
with `InvalidArgument` and the row never stores a zero-width `cwid` entry
except as a trailer attached to a preceding nonzero leader.  The code has no
argument validation at all: `WriteGlyphAtMeasured(0, 0, "y")` on `rowSingle`
completes normally (it returns a value, there is no failure path in the
function) and leaves `cwid = [(0,1),(1,1)]` — a zero-width run at index 0
with no leader before it. -/
theorem C8_counterexample :
    writeGlyphAtMeasured 10 rowSingle 0 0 [121] =
      some (⟨[121, 32], [(0, 1), (1, 1)], 1, 1⟩, (1, 0)) ∧
    decodeRuns [((0 : Nat), (1 : Nat)), (1, 1)] = [0, 1] := by decide

/-- C8 amended: `WriteGlyphAtMeasured` performs no argument validation:
whenever the damage scan terminates, the call returns a result — also for
`ncols = 0` or an empty glyph — rather than failing; such a call can store a
zero-width run in `cwid` that is not attached to a preceding leader (see the
counterexample). -/
theorem C8_no_validation (fuel col ncols : Nat) (row : ROW) (glyph : List Nat)
    (len maxD : Nat) (hs : writeScan fuel row col ncols = some (len, maxD)) :
    (writeGlyphAtMeasured fuel row col ncols glyph).isSome = true := by
  unfold writeGlyphAtMeasured
  rw [hs]
  rfl

/-- Witness for C8 amended: the `ncols = 0` call of the counterexample indeed
returns a result. -/
theorem C8_no_validation_witness :
    writeScan 10 rowSingle 0 0 = some (1, 1) ∧
    (writeGlyphAtMeasured 10 rowSingle 0 0 [121]).isSome = true :=
  ⟨by decide, C8_no_validation 10 0 0 rowSingle [121] 1 1 (by decide)⟩

/-- C1 counterexample: the claim says the first component of the returned
pair is the code-unit offset immediately after the written glyph in the new
data, also under left damage.  Writing `y` (121) with `ncols = 1` at column
1 (the trailing half of the wide glyph of `rowWideLead`) produces the new
data `[32, 121, 120]`: the glyph sits at offset 1, so the offset just past
it is 2 — but the call returns first component 1.  The single code unit
ending at the returned offset 1 is the padding space `[32]`, not the glyph
`[121]`. -/
theorem C1_counterexample :
    writeGlyphAtMeasured 10 rowWideLead 1 1 [121] =
      some (⟨[32, 121, 120], [(1, 3)], 2, 3⟩, (1, 2)) ∧
    ¬ (([32, 121, 120].drop (1 - 1)).take 1 = [121]) := by decide

/-- C1 amended: `WriteGlyphAtMeasured(col, ncols, glyph)` returns the pair
`(beginCU + g, col + ncols)` where `beginCU` is the data offset at which the
replaced range starts; when there is no left damage (lookup offset 0 at
`col`), `beginCU` is also where the glyph itself lands, so the first
component is then the offset just past the written glyph — with left damage
it falls `leftPad` code units short of that. -/
theorem C1_return_value (fuel col ncols : Nat) (row row' : ROW) (glyph : List Nat)
    (ret : Nat × Nat)
    (hw : writeGlyphAtMeasured fuel row col ncols glyph = some (row', ret)) :
    ret = ((row.indicesForCol col).dataOffset + glyph.length, col + ncols) ∧
    ((row.indicesForCol col).columnOffsetWithinGlyph = 0 →
      (row.indicesForCol col).dataOffset ≤ row.data.length →
      (row'.data.drop (row.indicesForCol col).dataOffset).take glyph.length = glyph) := by
  unfold writeGlyphAtMeasured at hw
  cases hs : writeScan fuel row col ncols with
  | none => rw [hs] at hw; simp at hw
  | some p =>
    obtain ⟨len, maxD⟩ := p
    rw [hs] at hw
    simp only [Option.some.injEq, Prod.mk.injEq] at hw
    obtain ⟨h1, h2⟩ := hw
    refine ⟨h2.symm, ?_⟩
    intro hoff hble
    have hdata := congrArg ROW.data h1
    dsimp only at hdata
    rw [← hdata]
    rw [hoff] at hdata ⊢
    by_cases hcond : col - 0 = col ∧ maxD = col + ncols
    · rw [if_pos hcond]
      have h := take_drop_listReplace row.data glyph []
        (row.indicesForCol col).dataOffset len hble
      rwa [List.append_nil] at h
    · rw [if_neg hcond]
      have hzero : col - (col - 0) = 0 := by omega
      rw [hzero, List.replicate_zero, List.nil_append]
      exact take_drop_listReplace row.data glyph
        (List.replicate (maxD - (col + ncols)) UNICODE_SPACE)
        (row.indicesForCol col).dataOffset len hble

/-- Witness for C1 amended: an exact overwrite of column 0 of `rowAscii2`
returns offset 1 = 0 + 1, and the written glyph is read back just before
that offset. -/
theorem C1_return_value_witness :
    writeGlyphAtMeasured 5 rowAscii2 0 1 [99] = some (⟨[99, 98], [(1, 2)], 1, 2⟩, (1, 1)) ∧
    ((1 : Nat), (1 : Nat)) = ((rowAscii2.indicesForCol 0).dataOffset + [99].length, 0 + 1) :=
  ⟨by decide,
    (C1_return_value 5 0 1 rowAscii2 ⟨[99, 98], [(1, 2)], 1, 2⟩ [99] (1, 1) (by decide)).1⟩

/-- C2: in the exact-overwrite case (the lookup yields `minDamageCol == col`
and the damage scan settles on `maxDamageColExcl == col + ncols`), the data
range `[beginCU, beginCU + lenCU)` is replaced by exactly the glyph's code
units, and the `cwid` values over the same code-unit range are replaced by
the runs `[(ncols, 1), (0, g-1)]` — the trailer run omitted when the glyph
has exactly one code unit — here read back at code-unit granularity as
`ncols :: (g-1 zeros)`. -/
theorem C2_exact_overwrite (fuel col ncols len : Nat) (row row' : ROW) (glyph : List Nat)
    (ret : Nat × Nat)
    (hg : 1 ≤ glyph.length)
    (hI1 : rleSize row.cwid = row.data.length)
    (hmin : col - (row.indicesForCol col).columnOffsetWithinGlyph = col)
    (hs : writeScan fuel row col ncols = some (len, col + ncols))
    (hw : writeGlyphAtMeasured fuel row col ncols glyph = some (row', ret)) :
    row'.data =
      row.data.take (row.indicesForCol col).dataOffset ++ glyph ++
        row.data.drop ((row.indicesForCol col).dataOffset + len) ∧
    decodeRuns row'.cwid =
      (decodeRuns row.cwid).take (row.indicesForCol col).dataOffset ++
        (ncols :: List.replicate (glyph.length - 1) 0) ++
        (decodeRuns row.cwid).drop ((row.indicesForCol col).dataOffset + len) := by
  unfold writeGlyphAtMeasured at hw
  rw [hs] at hw
  simp only [Option.some.injEq, Prod.mk.injEq] at hw
  obtain ⟨h1, -⟩ := hw
  have hdata := congrArg ROW.data h1
  have hcwid := congrArg ROW.cwid h1
  dsimp only at hdata hcwid
  have hcond : col - (row.indicesForCol col).columnOffsetWithinGlyph = col ∧ True :=
    ⟨hmin, trivial⟩
  rw [if_pos hcond] at hdata
  rw [if_pos hcond, if_pos hcond] at hcwid
  have hR : decodeRuns
      (if glyph.length = 1 then [(ncols, 1)] else [(ncols, 1), (0, glyph.length - 1)]) =
      ncols :: List.replicate (glyph.length - 1) 0 := by
    by_cases hone : glyph.length = 1
    · simp [hone, decodeRuns]
    · simp [hone, decodeRuns]
  have hlenR : (decodeRuns
      (if glyph.length = 1 then [(ncols, 1)] else [(ncols, 1), (0, glyph.length - 1)])).length
      = glyph.length := by
    rw [hR]
    simp only [List.length_cons, List.length_replicate]
    omega
  have hnofix : rleSize (rleReplace row.cwid (row.indicesForCol col).dataOffset
        ((row.indicesForCol col).dataOffset + len)
        (if glyph.length = 1 then [(ncols, 1)] else [(ncols, 1), (0, glyph.length - 1)])) =
      (listReplace row.data (row.indicesForCol col).dataOffset len glyph).length := by
    unfold rleReplace listReplace
    rw [rleSize_encodeRuns]
    simp only [List.length_append, List.length_take, List.length_drop, hlenR,
      length_decodeRuns]
    unfold rleSize at hI1
    omega
  rw [if_neg (not_ne_iff.mpr hnofix)] at hcwid
  constructor
  · rw [← hdata]
    unfold listReplace
    rfl
  · rw [← hcwid]
    unfold rleReplace
    rw [decode_encodeRuns, hR]

/-- Witness for C2: the exact overwrite of column 0 of `rowAscii2` by a
1-column glyph of two code units splices the glyph into the data and the
decoded widths `1 :: [0]` into `cwid`. -/
theorem C2_exact_overwrite_witness :
    writeGlyphAtMeasured 5 rowAscii2 0 1 [99, 100] =
      some (⟨[99, 100, 98], [(1, 1), (0, 1), (1, 1)], 1, 2⟩, (2, 1)) ∧
    ([99, 100, 98] : List Nat) =
      rowAscii2.data.take (rowAscii2.indicesForCol 0).dataOffset ++ [99, 100] ++
        rowAscii2.data.drop ((rowAscii2.indicesForCol 0).dataOffset + 1) ∧
    decodeRuns [((1 : Nat), (1 : Nat)), (0, 1), (1, 1)] =
      (decodeRuns rowAscii2.cwid).take (rowAscii2.indicesForCol 0).dataOffset ++
        (1 :: List.replicate ([99, 100].length - 1) 0) ++
        (decodeRuns rowAscii2.cwid).drop ((rowAscii2.indicesForCol 0).dataOffset + 1) := by
  refine ⟨by decide, ?_, ?_⟩
  · exact (C2_exact_overwrite 5 0 1 1 rowAscii2 ⟨[99, 100, 98], [(1, 1), (0, 1), (1, 1)], 1, 2⟩
      [99, 100] (2, 1) (by decide) (by decide) (by decide) (by decide) (by decide)).1
  · exact (C2_exact_overwrite 5 0 1 1 rowAscii2 ⟨[99, 100, 98], [(1, 1), (0, 1), (1, 1)], 1, 2⟩
      [99, 100] (2, 1) (by decide) (by decide) (by decide) (by decide) (by decide)).2

end TerminalRow
